import Mathlib

/-!
# Verification of the dependency-aware asset-hashing engine

This file gives a shallow embedding of the core of `src/asset-hash.ts` (the
`assetHash` function and its helpers) and settles the frozen claims about it.

Modelling conventions:
* JS strings that hold file *content* are modelled as `List Char` (positions
  are character indices, as produced by `matchAll`); paths, raw references and
  checksums that name things are `String`.
* Byte buffers (`ArrayBuffer` / `Uint8Array`) are `List Nat`.
* `fs` reads are a snapshot passed in the configuration (`fileText`,
  `readBytes`); writes are collected in a chronological trace.
* The regex scanner (`content.matchAll(pathRegex)`), glob matching
  (`fastGlob` / `micromatch`) and path joining (`nodePath.join`,
  `nodePath.dirname`) are external library collaborators; the configuration
  carries them as opaque functions (`scan`, `isIncludedAsset`, `joinAbs`,
  `joinRel`), exactly as the spec declares them out of scope.
* Promises are sequentialised: every async computation in the source is a
  deterministic function of its inputs and the per-path checksum cache is
  deduplicated, so the concurrent fan-out in `processLoop` computes the same
  values as the sequential fold used here.
* Throwing (`throw Error(...)`) is `Except.error`.
-/

instance {ε α : Type} [DecidableEq ε] [DecidableEq α] : DecidableEq (Except ε α) := fun x y =>
  match x, y with
  | .error a, .error b =>
    if h : a = b then isTrue (by rw [h]) else isFalse (fun hh => h (by cases hh; rfl))
  | .ok a, .ok b =>
    if h : a = b then isTrue (by rw [h]) else isFalse (fun hh => h (by cases hh; rfl))
  | .error _, .ok _ => isFalse (fun hh => Except.noConfusion hh)
  | .ok _, .error _ => isFalse (fun hh => Except.noConfusion hh)

namespace AssetHash

/-! ## String ordering (for the `[...dependencies].sort()` call)

JS `Array.prototype.sort()` without comparator sorts strings lexicographically;
we model it with the lexicographic order on the underlying character lists,
via an insertion sort that the kernel can evaluate. -/

def strLeB (a b : String) : Prop := a.data ≤ b.data

instance : DecidableRel strLeB := fun a b => inferInstanceAs (Decidable (a.data ≤ b.data))

instance : IsTotal String strLeB := ⟨fun a b => le_total a.data b.data⟩

instance : IsTrans String strLeB := ⟨fun _ _ _ h₁ h₂ => le_trans h₁ h₂⟩

instance : IsAntisymm String strLeB := ⟨fun _ _ h₁ h₂ => String.ext (le_antisymm h₁ h₂)⟩

def sortStrings (l : List String) : List String := List.insertionSort strLeB l

/-- Sort the members of a finite set of paths lexicographically
(`[...dependencies].sort()` on a JS `Set`). -/
def finsetSorted (s : Finset String) : List String :=
  Quot.liftOn s.val sortStrings (fun _ _ h => List.eq_of_perm_of_sorted
    (((List.perm_insertionSort _ _).trans (Quotient.exact (Quot.sound h))).trans
      (List.perm_insertionSort _ _).symm)
    (List.sorted_insertionSort _ _) (List.sorted_insertionSort _ _))

theorem mem_finsetSorted (s : Finset String) (p : String) : p ∈ finsetSorted s ↔ p ∈ s := by
  rcases s with ⟨m, nd⟩
  induction m using Quot.inductionOn with
  | _ l =>
    simpa [finsetSorted, Finset.mem_def, sortStrings] using
      (List.perm_insertionSort strLeB l).mem_iff

/-- JS `s.startsWith(p)` (character-wise prefix test). -/
def startsWith (s p : String) : Bool := p.data.isPrefixOf s.data

/-- Association-list lookup keyed by decidable string equality; models JS
`Map.get` (first/only binding wins; `set` shadows by prepending). -/
def alookup {α : Type} : List (String × α) → String → Option α
  | [], _ => none
  | (k, v) :: rest, q => if q = k then some v else alookup rest q

/-! ## Data model -/

/-- The `onMissing` policy (`"ignore" | "warn" | "error"`). -/
inductive OnMissing
  | ignore
  | warn
  | error
deriving DecidableEq

/-- A scanned reference, as recorded in `referenceMap`
(`type Reference = { path; endIndex; hasParams }`). -/
structure Reference where
  path : String
  endIndex : Nat
  hasParams : Bool
deriving DecidableEq

/-- The run configuration together with the file-system snapshot and the
external collaborators (scanner, glob matcher, path joiner).  `prefixPath`
models the `pathPrefix` option. -/
structure Config where
  prefixPath : String
  param : List Char
  onMissing : OnMissing
  fileIndex : List String
  assetIndex : List String
  isIncludedAsset : String → Bool
  joinAbs : String → String
  joinRel : String → String → String
  fileText : String → List Char
  readBytes : String → Option (List Nat)
  computeChecksum : List Nat → List Char
  hasMaxLength : Bool
  maxLength : Nat
  scan : List Char → List (Nat × String)
  encode : List Char → List Nat

/-! ## Checksum service (`hashContents`, `hashFile`, `hashFileWithCache`) -/

/-- `hashContents`: digest, truncated to `maxLength` when
`Number.isFinite(maxLength) && maxLength > 0` (captured by `hasMaxLength`). -/
def hashContents (cfg : Config) (bytes : List Nat) : List Char :=
  let hash := cfg.computeChecksum bytes
  if cfg.hasMaxLength then hash.take cfg.maxLength else hash

/-- `hashFile`: read the file (`null` when unreadable) and hash its bytes. -/
def hashFile (cfg : Config) (path : String) : Option (List Char) :=
  (cfg.readBytes path).map (hashContents cfg)

/-- The per-path checksum cache (`hashCache`); newest binding first. -/
abbrev Cache := List (String × Option (List Char))

/-- `hashFileWithCache`: consult the cache, otherwise compute and record. -/
def hashFileWithCache (cfg : Config) (cache : Cache) (path : String) :
    Option (List Char) × Cache :=
  match alookup cache path with
  | some v => (v, cache)
  | none =>
    let v := hashFile cfg path
    (v, (path, v) :: cache)

/-! ## Path resolver (`resolve`) -/

/-- The `missing` dedup set together with the warnings printed so far
(each warning is recorded as the missing resolved path paired with the
referencing file). -/
structure ResolveState where
  missing : List String
  warnings : List (String × String)
deriving DecidableEq

/-- The canonical path a reference joins to: the rooted branch strips the
path prefix and joins against the processing directory (`joinAbs`), the
relative branch joins against the referencing file's directory (`joinRel`). -/
def resolveTarget (cfg : Config) (assetPath : String) (path : String) : String :=
  if startsWith assetPath cfg.prefixPath then cfg.joinAbs assetPath
  else cfg.joinRel path assetPath

/-- `resolve(assetPath, path)` from `asset-hash.ts` (lines 92-117): returns
`none` for unrecognised shapes and missing targets, warns or throws per the
`onMissing` policy, deduplicating by resolved path via `missing`. -/
def resolve (cfg : Config) (rst : ResolveState) (assetPath : String) (path : String) :
    Except String (Option String × ResolveState) :=
  if !startsWith assetPath cfg.prefixPath && !startsWith assetPath "." then .ok (none, rst)
  else if resolveTarget cfg assetPath path ∈ cfg.assetIndex then
    .ok (some (resolveTarget cfg assetPath path), rst)
  else if cfg.onMissing = OnMissing.ignore then .ok (none, rst)
  else if resolveTarget cfg assetPath path ∈ rst.missing then .ok (none, rst)
  else if !cfg.isIncludedAsset (resolveTarget cfg assetPath path) then
    .ok (none, ⟨resolveTarget cfg assetPath path :: rst.missing, rst.warnings⟩)
  else if cfg.onMissing = OnMissing.error then
    .error ("Missing asset " ++ resolveTarget cfg assetPath path ++ " referenced in " ++ path)
  else
    .ok (none, ⟨resolveTarget cfg assetPath path :: rst.missing,
      rst.warnings ++ [(resolveTarget cfg assetPath path, path)]⟩)

/-! ## Building the reference and dependency maps (lines 141-156)

For each indexed file the content is scanned; every match is resolved, and
resolved references are recorded with their end index and whether a query
string already follows (`content[endIndex] == "?"`).  Targets that are
themselves indexed files become dependencies; the dependency set is seeded
with the file itself. -/

/-- Build the hasParams flag exactly as line 150 does. -/
def mkRef (content : List Char) (ap : String) (endIndex : Nat) : Reference :=
  ⟨ap, endIndex, decide (content.get? endIndex = some '?')⟩

/-- Process the scan matches of one file (the inner `for..of matchAll` loop). -/
def scanFile (cfg : Config) (content : List Char) (path : String) :
    List (Nat × String) → List Reference → Finset String → ResolveState →
    Except String (List Reference × Finset String × ResolveState)
  | [], refs, deps, rst => .ok (refs, deps, rst)
  | (i, t) :: rest, refs, deps, rst =>
    match resolve cfg rst t path with
    | .error e => .error e
    | .ok (none, rst2) => scanFile cfg content path rest refs deps rst2
    | .ok (some ap, rst2) =>
      let endIndex := i + t.length
      scanFile cfg content path rest (refs ++ [mkRef content ap endIndex])
        (if ap ∈ cfg.fileIndex then insert ap deps else deps) rst2

/-- Scan and resolve one indexed file. -/
def buildFile (cfg : Config) (path : String) (rst : ResolveState) :
    Except String (List Reference × Finset String × ResolveState) :=
  let content := cfg.fileText path
  scanFile cfg content path (cfg.scan content) [] {path} rst

/-- The maps produced by the scan-and-resolve pass. -/
structure ScanResult where
  refMap : List (String × List Reference)
  depMap : List (String × Finset String)
  rstate : ResolveState
deriving DecidableEq

/-- The outer `for (const path of fileIndex)` loop. -/
def buildAll (cfg : Config) :
    List String → List (String × List Reference) → List (String × Finset String) →
    ResolveState → Except String ScanResult
  | [], rm, dm, rst => .ok ⟨rm, dm, rst⟩
  | p :: rest, rm, dm, rst =>
    match buildFile cfg p rst with
    | .error e => .error e
    | .ok (refs, deps, rst2) =>
      buildAll cfg rest (rm ++ [(p, refs)]) (dm ++ [(p, deps)]) rst2

/-- The whole scan-and-resolve pass over the file index.  No file is written
during this pass (there is no `fs.writeFile` before line 210). -/
def buildMaps (cfg : Config) : Except String ScanResult :=
  buildAll cfg cfg.fileIndex [] [] ⟨[], []⟩

/-! ## Reference rewriter (`insertQueryParams`, lines 158-184)

The JS function walks the reference array left to right keeping a cumulative
`offset`; it mutates each reference's `endIndex` by the current offset, keeps
skipped (intra-unit) references in the array, and splices processed ones out.
The functional model returns the transformed text, the kept references (with
their adjusted end indices) and the evolved cache. -/

/-- The text inserted for one reference (line 176). -/
def refInsertion (cfg : Config) (hasParams : Bool) (h : List Char) : List Char :=
  if hasParams then cfg.param ++ '=' :: h ++ ['&'] else '?' :: cfg.param ++ '=' :: h

/-- Where the insertion happens (line 177). -/
def insertIdx (r : Reference) : Nat := if r.hasParams then r.endIndex + 1 else r.endIndex

/-- `target.slice(0, i) + s + target.slice(i)`. -/
def splice (t : List Char) (i : Nat) (s : List Char) : List Char :=
  t.take i ++ s ++ t.drop i

def iqpAux (cfg : Config) (skip : Finset String) :
    List Reference → List Char → Nat → Cache → List Char × List Reference × Cache
  | [], t, _, cache => (t, [], cache)
  | r :: rest, t, offset, cache =>
    let r2 : Reference := ⟨r.path, r.endIndex + offset, r.hasParams⟩
    if r2.path ∈ skip then
      let q := iqpAux cfg skip rest t offset cache
      (q.1, r2 :: q.2.1, q.2.2)
    else
      let hc := hashFileWithCache cfg cache r2.path
      match hc.1 with
      | none => iqpAux cfg skip rest t offset hc.2
      | some h =>
        iqpAux cfg skip rest (splice t (insertIdx r2) (refInsertion cfg r2.hasParams h))
          (offset + cfg.param.length + h.length + 2) hc.2

/-- `insertQueryParams(content, references, skip)`; an absent `skip` argument
behaves like the empty set. -/
def insertQueryParams (cfg : Config) (cache : Cache) (content : List Char)
    (refs : List Reference) (skip : Finset String) : List Char × List Reference × Cache :=
  iqpAux cfg skip refs content 0 cache

/-! ## Finalizing one processing unit (`processLoop`, lines 189-212) -/

/-- The mutable engine state threaded through the main loop: the dependency
map (whose keys are the remaining file index), the reference map, the
checksum cache, and the chronological `fs.writeFile` trace. -/
structure LoopState where
  depMap : List (String × Finset String)
  refMap : List (String × List Reference)
  cache : Cache
  writes : List (String × List Char)
deriving DecidableEq

def refsOf (rm : List (String × List Reference)) (p : String) : List Reference :=
  (alookup rm p).getD []

/-- Phase A: rewrite, in sorted order, every member's references whose target
lies outside the unit (`insertQueryParams(content, references, dependencies)`),
returning each member's rewritten content and kept (intra-unit) references. -/
def phaseA (cfg : Config) (rm : List (String × List Reference)) (unit : Finset String) :
    List String → Cache → List (String × List Char × List Reference) × Cache
  | [], cache => ([], cache)
  | p :: rest, cache =>
    let r := insertQueryParams cfg cache (cfg.fileText p) (refsOf rm p) unit
    let q := phaseA cfg rm unit rest r.2.2
    ((p, r.1, r.2.1) :: q.1, q.2)

/-- Phase B: rewrite the remaining (intra-unit) references with no skip set
and produce the write for each member. -/
def phaseB (cfg : Config) :
    List (String × List Char × List Reference) → Cache → List (String × List Char) × Cache
  | [], cache => ([], cache)
  | (p, t, refs) :: rest, cache =>
    let r := insertQueryParams cfg cache t refs ∅
    let q := phaseB cfg rest r.2.2
    ((p, r.1) :: q.1, q.2)

/-- `hashCache.set(dependency, hash)` for every unit member. -/
def setAll (ps : List String) (v : Option (List Char)) (c : Cache) : Cache :=
  ps.foldl (fun acc p => (p, v) :: acc) c

/-- The concatenation of the Phase-A-rewritten contents (`contents.join("")`). -/
def unitCombined (entries : List (String × List Char × List Reference)) : List Char :=
  (entries.map (fun e => e.2.1)).flatten

/-- The Phase-A combined content of a unit, as `processLoop` computes it. -/
def unitPhaseAContents (cfg : Config) (st : LoopState) (unit : Finset String) : List Char :=
  unitCombined (phaseA cfg st.refMap unit (finsetSorted unit) st.cache).1

/-- `processLoop(dependencies)`.  Note the faithful rendering of lines
200-201: `encoder.encodeInto(combined, uint8Array)` writes into
`new Uint8Array()` — a buffer of capacity 0 — so the digested byte list is
`(cfg.encode combined).take 0`, i.e. empty, whatever `combined` is. -/
def processUnit (cfg : Config) (st : LoopState) (unit : Finset String) : LoopState :=
  let sorted := finsetSorted unit
  let pa := phaseA cfg st.refMap unit sorted st.cache
  let combined := unitCombined pa.1
  let bytes := (cfg.encode combined).take 0
  let hash := hashContents cfg bytes
  let cache2 := setAll sorted (some hash) pa.2
  let pb := phaseB cfg pa.1 cache2
  { st with cache := pb.2, writes := st.writes ++ pb.1 }

/-! ## The main loop (lines 220-249)

Each iteration selects the entry with the smallest dependency set (first
strict improvement wins, early break on size 1), expands it to its closure
(JS `Set` iteration visits elements appended during iteration, so the single
`for..of` pass computes the full transitive closure), and either stores the
grown closure back into the map entry and re-selects (`continue`), or — when
the set was already closed — finalizes it and removes its members from the
index, the dependency map and every remaining dependency set. -/

def depsOf (m : List (String × Finset String)) (p : String) : Finset String :=
  (alookup m p).getD ∅

/-- One round of unioning in the dependency sets of all current members. -/
def closeStep (m : List (String × Finset String)) (s : Finset String) : Finset String :=
  s ∪ s.biUnion (depsOf m)

def closeN (m : List (String × Finset String)) : Nat → Finset String → Finset String
  | 0, s => s
  | n + 1, s => closeN m n (closeStep m s)

/-- The transitive closure of a dependency set under the dependency map, as
computed by the mutating `for (const dependency of smallestLoop)` pass. -/
def closure (m : List (String × Finset String)) (s : Finset String) : Finset String :=
  closeN m m.length s

/-- The `for (const [path, dependencies] of dependencyMap)` selection loop:
skip when not strictly smaller than the best so far, break on size 1. -/
def selectAux : List (String × Finset String) → Option (String × Finset String) →
    Option (String × Finset String)
  | [], best => best
  | (p, d) :: rest, none =>
    if d.card = 1 then some (p, d) else selectAux rest (some (p, d))
  | (p, d) :: rest, some b =>
    if d.card < b.2.card then
      if d.card = 1 then some (p, d) else selectAux rest (some (p, d))
    else selectAux rest (some b)

def selectSmallest (m : List (String × Finset String)) : Option (String × Finset String) :=
  selectAux m none

/-- Update the (unique, by nodup keys) entry of `p`; models the in-place
mutation of the selected `Set` object aliased by the map. -/
def updateEntry (m : List (String × Finset String)) (p : String) (v : Finset String) :
    List (String × Finset String) :=
  m.map (fun e => if e.1 = p then (e.1, v) else e)

/-- Remove every member of `unit` from the index/dependency map, the
reference map, and from every remaining dependency set (lines 241-248). -/
def removeUnit (st : LoopState) (unit : Finset String) : LoopState :=
  { st with
    depMap := (st.depMap.filter (fun e => e.1 ∉ unit)).map (fun e => (e.1, e.2 \ unit)),
    refMap := st.refMap.filter (fun e => e.1 ∉ unit) }

/-- The observable outcome of one `while` iteration. -/
inductive StepResult
  | done
  | expanded (st : LoopState)
  | finalized (p : String) (unit : Finset String) (st : LoopState)
deriving DecidableEq

/-- One iteration of the `while (fileIndex.size > 0)` loop. -/
def loopStep (cfg : Config) (st : LoopState) : StepResult :=
  match selectSmallest st.depMap with
  | none => .done
  | some (p, d) =>
    if d.card < (closure st.depMap d).card then
      .expanded { st with depMap := updateEntry st.depMap p (closure st.depMap d) }
    else
      .finalized p d (removeUnit (processUnit cfg st d) (insert p d))

/-- The selected path and unit when the next step finalizes one. -/
def finalizeInfo (cfg : Config) (st : LoopState) : Option (String × Finset String) :=
  match loopStep cfg st with
  | .finalized p u _ => some (p, u)
  | _ => none

/-- Iterate the loop a given number of times (the loop is modelled with
explicit fuel; termination is proved separately). -/
def loopIter (cfg : Config) : Nat → LoopState → LoopState
  | 0, st => st
  | n + 1, st =>
    match loopStep cfg st with
    | .done => st
    | .expanded st2 => loopIter cfg n st2
    | .finalized _ _ st2 => loopIter cfg n st2

/-- A fuel bound under which the loop drains the index (see the termination
theorem): `L^3 + (L^2 - Σ cards) + 1` strictly decreases at every step. -/
def sumCards (m : List (String × Finset String)) : Nat :=
  (m.map (fun e => e.2.card)).sum

def psi (st : LoopState) : Nat :=
  st.depMap.length * st.depMap.length * st.depMap.length +
    (st.depMap.length * st.depMap.length - sumCards st.depMap)

/-- The whole `assetHash` run on an indexed snapshot: the scan-and-resolve
pass (which may throw under the `error` policy), then the processing loop.
The successful result is the chronological write trace. -/
def assetHashRun (cfg : Config) (fuel : Nat) : Except String (List (String × List Char)) :=
  match buildMaps cfg with
  | .error e => .error e
  | .ok sr => .ok (loopIter cfg fuel ⟨sr.depMap, sr.refMap, [], []⟩).writes

/-! ## The right-to-left rewriting strategy (spec §4.4's alternative)

`rtlOff` applies the insertions right-to-left without offset bookkeeping:
the rightmost references are inserted first, then each earlier one at its
original (plus ambient offset `o`) position.  The checksum attached to a
path is its canonical value `canonHash`: the cached value if present,
otherwise `hashFile` — which is exactly what `hashFileWithCache` produces
irrespective of processing order. -/

def canonHash (cfg : Config) (c0 : Cache) (p : String) : Option (List Char) :=
  (alookup c0 p).getD (hashFile cfg p)

def rtlIns (cfg : Config) (c0 : Cache) (r : Reference) (o : Nat) (t : List Char) :
    List Char :=
  match canonHash cfg c0 r.path with
  | none => t
  | some h => splice t (insertIdx r + o) (refInsertion cfg r.hasParams h)

def rtlOff (cfg : Config) (c0 : Cache) (t : List Char) :
    List Reference → Nat → List Char
  | [], _ => t
  | r :: rest, o => rtlIns cfg c0 r o (rtlOff cfg c0 t rest o)

/-- The evolving cache stays consistent with the canonical values determined
by the starting cache: entries are never overwritten, and new entries are
computed by `hashFile`. -/
def cacheConsistent (cfg : Config) (c0 c : Cache) : Prop :=
  (∀ p v, alookup c0 p = some v → alookup c p = some v) ∧
  (∀ p v, alookup c p = some v → v = canonHash cfg c0 p)

/-! ## Concrete instances used to evaluate the code on specific inputs -/

/-- A one-file index with no references; its file content is "hello". -/
def cfg1 : Config where
  prefixPath := "/"
  param := ['v']
  onMissing := .warn
  fileIndex := ["u/a.html"]
  assetIndex := []
  isIncludedAsset := fun _ => true
  joinAbs := fun _ => ""
  joinRel := fun _ _ => ""
  fileText := fun p => if p = "u/a.html" then "hello".data else []
  readBytes := fun _ => none
  computeChecksum := fun bytes => 'h' :: List.replicate bytes.length 'x'
  hasMaxLength := false
  maxLength := 0
  scan := fun _ => []
  encode := fun chars => chars.map Char.toNat

def st1 : LoopState := ⟨[("u/a.html", {"u/a.html"})], [("u/a.html", [])], [], []⟩

def U1 : Finset String := {"u/a.html"}

/-- The spec's example scenario: `a.html` references `./b.html`, `b.html`
references `./c.css`, `c.css` is a plain asset with content "X" (byte 88).
The digest function is `'h'` followed by one `'x'` per input byte, so
distinct input lengths give distinct digests. -/
def cfg2 : Config where
  prefixPath := "/"
  param := ['v']
  onMissing := .warn
  fileIndex := ["out/a.html", "out/b.html"]
  assetIndex := ["out/b.html", "out/c.css"]
  isIncludedAsset := fun _ => true
  joinAbs := fun _ => ""
  joinRel := fun file _ =>
    if file = "out/a.html" then "out/b.html"
    else if file = "out/b.html" then "out/c.css" else ""
  fileText := fun p =>
    if p = "out/a.html" then " ./b.html ".data
    else if p = "out/b.html" then " ./c.css ".data else []
  readBytes := fun p => if p = "out/c.css" then some [88] else none
  computeChecksum := fun bytes => 'h' :: List.replicate bytes.length 'x'
  hasMaxLength := false
  maxLength := 0
  scan := fun content =>
    if content = " ./b.html ".data then [(1, "./b.html")]
    else if content = " ./c.css ".data then [(1, "./c.css")] else []
  encode := fun chars => chars.map Char.toNat

/-- An `error`-policy run whose single indexed file `f` holds one relative
reference `./m.css` resolving to `m.css`, which is absent from the (empty)
asset index yet matched by the asset globs. -/
def cfg9 : Config where
  prefixPath := "/"
  param := ['v']
  onMissing := .error
  fileIndex := ["f"]
  assetIndex := []
  isIncludedAsset := fun _ => true
  joinAbs := fun _ => ""
  joinRel := fun _ _ => "m.css"
  fileText := fun _ => []
  readBytes := fun _ => none
  computeChecksum := fun bytes => 'h' :: List.replicate bytes.length 'x'
  hasMaxLength := false
  maxLength := 0
  scan := fun _ => [(0, "./m.css")]
  encode := fun chars => chars.map Char.toNat

/-- Like `cfg9` but the missing path is rejected by the asset globs, and the
single file contains no references at all. -/
def cfg10w : Config where
  prefixPath := "/"
  param := ['v']
  onMissing := .error
  fileIndex := ["u/a.html"]
  assetIndex := []
  isIncludedAsset := fun _ => false
  joinAbs := fun _ => ""
  joinRel := fun _ _ => "m.css"
  fileText := fun _ => []
  readBytes := fun _ => none
  computeChecksum := fun bytes => 'h' :: List.replicate bytes.length 'x'
  hasMaxLength := false
  maxLength := 0
  scan := fun _ => []
  encode := fun chars => chars.map Char.toNat

/-- The scan result of `cfg10w` (no references, no warnings). -/
def sr10w : ScanResult := ⟨[("u/a.html", [])], [("u/a.html", {"u/a.html"})], ⟨[], []⟩⟩

/-- Two resolvable assets `x` and `y` with distinct checksums `hx`, `hy`. -/
def cfg7 : Config where
  prefixPath := "/"
  param := ['v']
  onMissing := .warn
  fileIndex := []
  assetIndex := ["x", "y"]
  isIncludedAsset := fun _ => true
  joinAbs := fun _ => ""
  joinRel := fun _ _ => ""
  fileText := fun _ => []
  readBytes := fun p => if p = "x" then some [1] else if p = "y" then some [2] else none
  computeChecksum := fun bytes => if bytes = [1] then ['h', 'x'] else ['h', 'y']
  hasMaxLength := false
  maxLength := 0
  scan := fun _ => []
  encode := fun chars => chars.map Char.toNat

/-- Two references into the text "PQRS", ending at indices 1 and 3. -/
def r71 : Reference := ⟨"x", 1, false⟩

def r72 : Reference := ⟨"y", 3, false⟩

/-- A two-member mutual cycle between `u/a.html` and `u/b.html`. -/
def st5w : LoopState :=
  ⟨[("u/a.html", {"u/a.html", "u/b.html"}), ("u/b.html", {"u/a.html", "u/b.html"})],
   [("u/a.html", [⟨"u/b.html", 0, false⟩]), ("u/b.html", [⟨"u/a.html", 0, false⟩])], [], []⟩

def U5w : Finset String := {"u/a.html", "u/b.html"}

/-! ## Cache lemmas -/

theorem alookup_setAll_mem {v : Option (List Char)} :
    ∀ (ps : List String) (c : Cache) (p : String),
      p ∈ ps ∨ alookup c p = some v → alookup (setAll ps v c) p = some v := by
  intro ps
  induction ps with
  | nil =>
    intro c p h
    rcases h with h | h
    · cases h
    · exact h
  | cons q rest ih =>
    intro c p h
    show alookup (setAll rest v ((q, v) :: c)) p = some v
    rcases h with h | h
    · rcases List.mem_cons.mp h with rfl | hm
      · by_cases hpq : p ∈ rest
        · exact ih _ _ (Or.inl hpq)
        · exact ih _ _ (Or.inr (by simp [alookup]))
      · exact ih _ _ (Or.inl hm)
    · by_cases hpq : p = q
      · exact ih _ _ (Or.inr (by simp [alookup, hpq]))
      · exact ih _ _ (Or.inr (by simpa [alookup, hpq] using h))

theorem hashFileWithCache_mono (cfg : Config) (cache : Cache) (p q : String)
    {v : Option (List Char)} (h : alookup cache q = some v) :
    alookup (hashFileWithCache cfg cache p).2 q = some v := by
  unfold hashFileWithCache
  cases hl : alookup cache p with
  | some w => simpa using h
  | none =>
    by_cases hqp : q = p
    · rw [hqp] at h; rw [h] at hl; cases hl
    · simpa [alookup, hqp] using h

theorem iqpAux_cache_mono (cfg : Config) (skip : Finset String) :
    ∀ (refs : List Reference) (t : List Char) (o : Nat) (cache : Cache) (q : String)
      {v : Option (List Char)}, alookup cache q = some v →
      alookup (iqpAux cfg skip refs t o cache).2.2 q = some v := by
  intro refs
  induction refs with
  | nil => intro t o cache q v h; exact h
  | cons r rest ih =>
    intro t o cache q v h
    unfold iqpAux
    by_cases hs : (⟨r.path, r.endIndex + o, r.hasParams⟩ : Reference).path ∈ skip
    · simpa [hs] using ih _ _ _ _ h
    · have hm := hashFileWithCache_mono cfg cache
        (⟨r.path, r.endIndex + o, r.hasParams⟩ : Reference).path q h
      cases hv : (hashFileWithCache cfg cache
          (⟨r.path, r.endIndex + o, r.hasParams⟩ : Reference).path).1 with
      | none => simpa [hs, hv] using ih _ _ _ _ hm
      | some hh => simpa [hs, hv] using ih _ _ _ _ hm

theorem phaseB_cache_mono (cfg : Config) :
    ∀ (entries : List (String × List Char × List Reference)) (cache : Cache) (q : String)
      {v : Option (List Char)}, alookup cache q = some v →
      alookup (phaseB cfg entries cache).2 q = some v := by
  intro entries
  induction entries with
  | nil => intro cache q v h; exact h
  | cons e rest ih =>
    intro cache q v h
    rcases e with ⟨p, t, refs⟩
    exact ih _ _ (iqpAux_cache_mono cfg ∅ refs t 0 cache q h)

/-! ## Keys, lookups and well-formedness of the dependency map -/

def keys (m : List (String × Finset String)) : List String := m.map Prod.fst

/-- Well-formedness maintained by the engine: the index has no duplicate
paths, every dependency set contains its own file (line 144 seeds it with
`[path]`), and dependency sets only mention paths still in the index
(line 152 only adds indexed targets; removal erases members everywhere). -/
abbrev WFdep (m : List (String × Finset String)) : Prop :=
  (keys m).Nodup ∧ (∀ e ∈ m, e.1 ∈ e.2) ∧ (∀ e ∈ m, ∀ q ∈ e.2, q ∈ keys m)

theorem alookup_mem {α : Type} :
    ∀ (m : List (String × α)) (p : String) (v : α), alookup m p = some v → (p, v) ∈ m := by
  intro m
  induction m with
  | nil => intro p v h; cases h
  | cons e rest ih =>
    intro p v h
    rcases e with ⟨k, w⟩
    by_cases hp : p = k
    · subst hp
      simp [alookup] at h
      subst h
      exact List.mem_cons_self _ _
    · rw [alookup, if_neg hp] at h
      exact List.mem_cons_of_mem _ (ih p v h)

theorem alookup_exists_of_mem_keys :
    ∀ (m : List (String × Finset String)) (p : String), p ∈ keys m →
      ∃ v, alookup m p = some v := by
  intro m
  induction m with
  | nil => intro p h; cases h
  | cons e rest ih =>
    intro p h
    by_cases hp : p = e.1
    · exact ⟨e.2, by rcases e with ⟨k, w⟩; simp [alookup, hp]⟩
    · rcases List.mem_cons.mp h with h | h
      · exact absurd h hp
      · rcases ih p h with ⟨v, hv⟩
        exact ⟨v, by rcases e with ⟨k, w⟩; simpa [alookup, hp] using hv⟩

theorem depsOf_subset_keys (m : List (String × Finset String))
    (hwf : WFdep m) (x : String) : ∀ q ∈ depsOf m x, q ∈ keys m := by
  intro q hq
  unfold depsOf at hq
  cases hl : alookup m x with
  | none => rw [hl] at hq; cases hq
  | some w =>
    rw [hl] at hq
    exact hwf.2.2 (x, w) (alookup_mem m x w hl) q hq

/-! ## Selection lemmas -/

theorem selectAux_eq_none :
    ∀ (l : List (String × Finset String)) (best : Option (String × Finset String)),
      selectAux l best = none → l = [] ∧ best = none := by
  intro l
  induction l with
  | nil => intro best h; exact ⟨rfl, h⟩
  | cons e rest ih =>
    intro best h
    rcases e with ⟨p, d⟩
    cases best with
    | none =>
      rw [selectAux] at h
      split_ifs at h with h1
      rcases ih _ h with ⟨_, h3⟩
      cases h3
    | some b =>
      rw [selectAux] at h
      split_ifs at h with h1 h2
      · rcases ih _ h with ⟨_, h3⟩
        cases h3
      · rcases ih _ h with ⟨_, h3⟩
        cases h3

theorem selectAux_mem :
    ∀ (l : List (String × Finset String)) (best : Option (String × Finset String))
      (p : String) (d : Finset String), selectAux l best = some (p, d) →
      (p, d) ∈ l ∨ best = some (p, d) := by
  intro l
  induction l with
  | nil => intro best p d h; exact Or.inr h
  | cons e rest ih =>
    intro best p d h
    rcases e with ⟨q, s⟩
    cases best with
    | none =>
      rw [selectAux] at h
      split_ifs at h with h1
      · cases h
        exact Or.inl (List.mem_cons_self _ _)
      · rcases ih _ _ _ h with h3 | h3
        · exact Or.inl (List.mem_cons_of_mem _ h3)
        · cases h3
          exact Or.inl (List.mem_cons_self _ _)
    | some b =>
      rw [selectAux] at h
      split_ifs at h with h1 h2
      · cases h
        exact Or.inl (List.mem_cons_self _ _)
      · rcases ih _ _ _ h with h3 | h3
        · exact Or.inl (List.mem_cons_of_mem _ h3)
        · cases h3
          exact Or.inl (List.mem_cons_self _ _)
      · rcases ih _ _ _ h with h3 | h3
        · exact Or.inl (List.mem_cons_of_mem _ h3)
        · exact Or.inr h3

theorem selectAux_min :
    ∀ (l : List (String × Finset String)) (best : Option (String × Finset String))
      (p : String) (d : Finset String),
      (∀ e ∈ l, 1 ≤ e.2.card) → (∀ b, best = some b → 1 ≤ b.2.card) →
      selectAux l best = some (p, d) →
      (∀ e ∈ l, d.card ≤ e.2.card) ∧ (∀ b, best = some b → d.card ≤ b.2.card) := by
  intro l
  induction l with
  | nil =>
    intro best p d _ _ h
    refine ⟨fun e he => absurd he (List.not_mem_nil e), fun b hb => ?_⟩
    rw [hb] at h
    cases h
    exact le_refl _
  | cons e rest ih =>
    intro best p d hl hb h
    rcases e with ⟨q, s⟩
    have hs1 : 1 ≤ s.card := hl (q, s) (List.mem_cons_self _ _)
    cases best with
    | none =>
      rw [selectAux] at h
      split_ifs at h with h1
      · cases h
        constructor
        · intro e he
          rw [h1]
          exact hl e he
        · intro b hbb
          cases hbb
      · have hrest := ih (some (q, s)) p d (fun e he => hl e (List.mem_cons_of_mem _ he))
          (fun b hbb => by cases hbb; exact hs1) h
        have hds : d.card ≤ s.card := hrest.2 (q, s) rfl
        constructor
        · intro e he
          rcases List.mem_cons.mp he with rfl | he2
          · exact hds
          · exact hrest.1 e he2
        · intro b hbb
          cases hbb
    | some b0 =>
      rw [selectAux] at h
      split_ifs at h with h1 h2
      · cases h
        constructor
        · intro e he
          rw [h2]
          exact hl e he
        · intro b hbb
          cases hbb
          rw [h2]
          exact hb _ rfl
      · have hrest := ih (some (q, s)) p d (fun e he => hl e (List.mem_cons_of_mem _ he))
          (fun b hbb => by cases hbb; exact hs1) h
        have hds : d.card ≤ s.card := hrest.2 (q, s) rfl
        constructor
        · intro e he
          rcases List.mem_cons.mp he with rfl | he2
          · exact hds
          · exact hrest.1 e he2
        · intro b hbb
          cases hbb
          exact le_trans hds (le_of_lt h1)
      · have hrest := ih (some b0) p d (fun e he => hl e (List.mem_cons_of_mem _ he)) hb h
        have hdb : d.card ≤ b0.2.card := hrest.2 b0 rfl
        constructor
        · intro e he
          rcases List.mem_cons.mp he with rfl | he2
          · exact le_trans hdb (Nat.le_of_not_lt h1)
          · exact hrest.1 e he2
        · exact hrest.2

/-! ## Closure lemmas -/

theorem subset_closeStep (m : List (String × Finset String)) (s : Finset String) :
    s ⊆ closeStep m s :=
  Finset.subset_union_left

theorem closeStep_mono (m : List (String × Finset String)) {s t : Finset String}
    (h : s ⊆ t) : closeStep m s ⊆ closeStep m t :=
  Finset.union_subset_union h (Finset.biUnion_subset_biUnion_of_subset_left _ h)

theorem subset_closeN (m : List (String × Finset String)) :
    ∀ (n : Nat) (s : Finset String), s ⊆ closeN m n s := by
  intro n
  induction n with
  | zero => intro s; exact Finset.Subset.refl s
  | succ k ih =>
    intro s
    exact (subset_closeStep m s).trans (ih (closeStep m s))

theorem closeN_mono (m : List (String × Finset String)) :
    ∀ (n : Nat) {s t : Finset String}, s ⊆ t → closeN m n s ⊆ closeN m n t := by
  intro n
  induction n with
  | zero => intro s t h; exact h
  | succ k ih => intro s t h; exact ih (closeStep_mono m h)

theorem closeN_of_fixed (m : List (String × Finset String)) {s : Finset String}
    (h : closeStep m s = s) : ∀ n, closeN m n s = s := by
  intro n
  induction n with
  | zero => rfl
  | succ k ih => rw [closeN, h, ih]

theorem closeStep_fixed_of_closeN_eq (m : List (String × Finset String))
    {s : Finset String} {n : Nat} (h : closeN m (n + 1) s = s) : closeStep m s = s := by
  have h1 : closeStep m s ⊆ closeN m (n + 1) s := by
    rw [closeN]
    exact subset_closeN m n (closeStep m s)
  rw [h] at h1
  exact Finset.Subset.antisymm h1 (subset_closeStep m s)

theorem closed_iff (m : List (String × Finset String)) (s : Finset String) :
    closeStep m s = s ↔ ∀ p ∈ s, depsOf m p ⊆ s := by
  constructor
  · intro h p hp q hq
    rw [← h]
    unfold closeStep
    exact Finset.mem_union_right _ (Finset.mem_biUnion.mpr ⟨p, hp, hq⟩)
  · intro h
    refine Finset.Subset.antisymm ?_ (subset_closeStep m s)
    unfold closeStep
    refine Finset.union_subset (Finset.Subset.refl s) ?_
    exact Finset.biUnion_subset.mpr h

theorem closeN_subset_closed (m : List (String × Finset String)) :
    ∀ (n : Nat) {s t : Finset String}, s ⊆ t → closeStep m t = t → closeN m n s ⊆ t := by
  intro n
  induction n with
  | zero => intro s t h _; exact h
  | succ k ih =>
    intro s t h hfix
    rw [closeN]
    exact ih ((closeStep_mono m h).trans (le_of_eq hfix)) hfix

theorem closeN_subset_keys (m : List (String × Finset String)) (hwf : WFdep m) :
    ∀ (n : Nat) {s : Finset String}, (∀ q ∈ s, q ∈ keys m) →
      ∀ q ∈ closeN m n s, q ∈ keys m := by
  intro n
  induction n with
  | zero => intro s h; exact h
  | succ k ih =>
    intro s h
    rw [closeN]
    refine ih ?_
    intro q hq
    unfold closeStep at hq
    rcases Finset.mem_union.mp hq with hq | hq
    · exact h q hq
    · rcases Finset.mem_biUnion.mp hq with ⟨x, _, hqx⟩
      exact depsOf_subset_keys m hwf x q hqx

/-! ## Loop step inversion -/

theorem loopStep_done_iff (cfg : Config) (st : LoopState) :
    loopStep cfg st = .done ↔ st.depMap = [] := by
  constructor
  · intro h
    unfold loopStep at h
    cases hsel : selectSmallest st.depMap with
    | none => exact (selectAux_eq_none _ _ hsel).1
    | some pd =>
      rcases pd with ⟨p, d⟩
      rw [hsel] at h
      dsimp only at h
      by_cases hc : d.card < (closure st.depMap d).card
      · rw [if_pos hc] at h
        cases h
      · rw [if_neg hc] at h
        cases h
  · intro h
    unfold loopStep selectSmallest
    rw [h]
    rfl

theorem loopStep_expanded_spec (cfg : Config) (st st2 : LoopState)
    (h : loopStep cfg st = .expanded st2) :
    ∃ p d, selectSmallest st.depMap = some (p, d) ∧
      d.card < (closure st.depMap d).card ∧
      st2 = { st with depMap := updateEntry st.depMap p (closure st.depMap d) } := by
  unfold loopStep at h
  cases hsel : selectSmallest st.depMap with
  | none => rw [hsel] at h; cases h
  | some pd =>
    rcases pd with ⟨p, d⟩
    rw [hsel] at h
    dsimp only at h
    by_cases hc : d.card < (closure st.depMap d).card
    · rw [if_pos hc] at h
      cases h
      exact ⟨p, d, rfl, hc, rfl⟩
    · rw [if_neg hc] at h
      cases h

theorem loopStep_finalized_spec (cfg : Config) (st : LoopState) (p : String)
    (U : Finset String) (st2 : LoopState) (h : loopStep cfg st = .finalized p U st2) :
    selectSmallest st.depMap = some (p, U) ∧ (closure st.depMap U).card ≤ U.card ∧
      st2 = removeUnit (processUnit cfg st U) (insert p U) := by
  unfold loopStep at h
  cases hsel : selectSmallest st.depMap with
  | none => rw [hsel] at h; cases h
  | some pd =>
    rcases pd with ⟨q, d⟩
    rw [hsel] at h
    dsimp only at h
    by_cases hc : d.card < (closure st.depMap d).card
    · rw [if_pos hc] at h
      cases h
    · rw [if_neg hc] at h
      cases h
      exact ⟨rfl, Nat.le_of_not_lt hc, rfl⟩

theorem finalizeInfo_spec (cfg : Config) (st : LoopState) (p : String) (U : Finset String)
    (h : finalizeInfo cfg st = some (p, U)) :
    selectSmallest st.depMap = some (p, U) ∧ (closure st.depMap U).card ≤ U.card := by
  unfold finalizeInfo at h
  cases hls : loopStep cfg st with
  | done => rw [hls] at h; cases h
  | expanded st2 => rw [hls] at h; cases h
  | finalized p2 U2 st2 =>
    rw [hls] at h
    cases h
    have hspec := loopStep_finalized_spec cfg st p U st2 hls
    exact ⟨hspec.1, hspec.2.1⟩

/-- A unit selected for finalization is a fixed point of `closeStep` (hence
closed) and is an actual entry of the dependency map. -/
theorem selected_closed (m : List (String × Finset String)) (p : String) (U : Finset String)
    (hsel : selectAux m none = some (p, U)) (hcard : (closure m U).card ≤ U.card) :
    closeStep m U = U ∧ (p, U) ∈ m := by
  have hmem : (p, U) ∈ m := by
    rcases selectAux_mem m none p U hsel with h | h
    · exact h
    · cases h
  have hsub : U ⊆ closure m U := subset_closeN m m.length U
  have hequ : closure m U = U := (Finset.eq_of_subset_of_card_le hsub hcard).symm
  have hne : m.length ≠ 0 := by
    intro h0
    rw [List.length_eq_zero.mp h0] at hmem
    cases hmem
  obtain ⟨n, hn⟩ := Nat.exists_eq_succ_of_ne_zero hne
  have hcn : closeN m (n + 1) U = U := by
    rw [show n + 1 = m.length from by omega]
    exact hequ
  exact ⟨closeStep_fixed_of_closeN_eq m hcn, hmem⟩

/-! ## Preservation of well-formedness and the termination measure -/

theorem keys_updateEntry (m : List (String × Finset String)) (p : String) (v : Finset String) :
    keys (updateEntry m p v) = keys m := by
  unfold keys updateEntry
  rw [List.map_map]
  congr 1
  funext e
  by_cases h : e.1 = p <;> simp [h]

theorem length_updateEntry (m : List (String × Finset String)) (p : String)
    (v : Finset String) : (updateEntry m p v).length = m.length :=
  List.length_map m _

theorem updateEntry_not_mem (p : String) (v : Finset String) :
    ∀ (m : List (String × Finset String)), p ∉ keys m → updateEntry m p v = m := by
  intro m
  induction m with
  | nil => intro _; rfl
  | cons e rest ih =>
    intro h
    have hne : e.1 ≠ p := by
      intro he
      exact h (by rw [← he]; exact List.mem_cons_self _ _)
    unfold updateEntry
    rw [List.map_cons, if_neg hne]
    have := ih (fun hk => h (List.mem_cons_of_mem _ hk))
    unfold updateEntry at this
    rw [this]

theorem wf_updateEntry_closure (m : List (String × Finset String)) (p : String)
    (d : Finset String) (hwf : WFdep m) (hmem : (p, d) ∈ m) :
    WFdep (updateEntry m p (closure m d)) := by
  have hsub : d ⊆ closure m d := subset_closeN m m.length d
  have hkeys : ∀ q ∈ closure m d, q ∈ keys m :=
    closeN_subset_keys m hwf m.length (hwf.2.2 (p, d) hmem)
  refine ⟨?_, ?_, ?_⟩
  · rw [keys_updateEntry]
    exact hwf.1
  · intro e he
    rcases List.mem_map.mp he with ⟨e0, he0, rfl⟩
    by_cases h : e0.1 = p
    · rw [if_pos h]
      exact hsub (h ▸ hwf.2.1 (p, d) hmem)
    · rw [if_neg h]
      exact hwf.2.1 e0 he0
  · intro e he q hq
    rw [keys_updateEntry]
    rcases List.mem_map.mp he with ⟨e0, he0, rfl⟩
    by_cases h : e0.1 = p
    · rw [if_pos h] at hq
      exact hkeys q hq
    · rw [if_neg h] at hq
      exact hwf.2.2 e0 he0 q hq

theorem sumCards_updateEntry (p : String) (v : Finset String) :
    ∀ (m : List (String × Finset String)), (keys m).Nodup → ∀ d, (p, d) ∈ m →
      sumCards (updateEntry m p v) + d.card = sumCards m + v.card := by
  intro m
  induction m with
  | nil =>
    intro _ d hmem
    cases hmem
  | cons e rest ih =>
    intro hnd d hmem
    have hnd2 : (keys rest).Nodup := (List.nodup_cons.mp hnd).2
    rcases List.mem_cons.mp hmem with rfl | hmem2
    · have hpk : p ∉ keys rest := (List.nodup_cons.mp hnd).1
      unfold sumCards updateEntry
      rw [List.map_cons, if_pos rfl]
      have hrest : updateEntry rest p v = rest := updateEntry_not_mem p v rest hpk
      unfold updateEntry at hrest
      rw [hrest, List.map_cons, List.map_cons, List.sum_cons, List.sum_cons]
      dsimp only
      omega
    · have hep : e.1 ≠ p := by
        intro he
        exact (List.nodup_cons.mp hnd).1 (he ▸ List.mem_map.mpr ⟨(p, d), hmem2, rfl⟩)
      unfold sumCards updateEntry
      rw [List.map_cons, if_neg hep, List.map_cons, List.map_cons, List.sum_cons,
        List.sum_cons]
      have := ih hnd2 d hmem2
      unfold sumCards updateEntry at this
      omega

theorem card_le_length_of_wf (m : List (String × Finset String)) (hwf : WFdep m)
    (e : String × Finset String) (he : e ∈ m) : e.2.card ≤ m.length := by
  have hsub : e.2 ⊆ (keys m).toFinset := by
    intro q hq
    exact List.mem_toFinset.mpr (hwf.2.2 e he q hq)
  calc e.2.card ≤ (keys m).toFinset.card := Finset.card_le_card hsub
    _ ≤ (keys m).length := List.toFinset_card_le _
    _ = m.length := List.length_map m _

theorem sumCards_le (m : List (String × Finset String)) (hwf : WFdep m) :
    sumCards m ≤ m.length * m.length := by
  have h := List.sum_le_card_nsmul (m.map (fun e => e.2.card)) m.length ?_
  · simpa [sumCards, smul_eq_mul] using h
  · intro x hx
    rcases List.mem_map.mp hx with ⟨e, he, rfl⟩
    exact card_le_length_of_wf m hwf e he

theorem removeUnit_depMap_eq (st : LoopState) (unit : Finset String) :
    (removeUnit st unit).depMap =
      (st.depMap.filter (fun e => e.1 ∉ unit)).map (fun e => (e.1, e.2 \ unit)) := rfl

theorem processUnit_depMap_eq (cfg : Config) (st : LoopState) (U : Finset String) :
    (processUnit cfg st U).depMap = st.depMap := rfl

theorem keys_removeUnit_subset (st : LoopState) (unit : Finset String) :
    ∀ q ∈ keys (removeUnit st unit).depMap, q ∈ keys st.depMap := by
  intro q hq
  rw [removeUnit_depMap_eq] at hq
  unfold keys at hq
  rw [List.map_map] at hq
  rcases List.mem_map.mp hq with ⟨e, he, rfl⟩
  exact List.mem_map.mpr ⟨e, (List.filter_sublist st.depMap).mem he, rfl⟩

theorem wf_removeUnit (st : LoopState) (unit : Finset String)
    (hwf : WFdep st.depMap) : WFdep (removeUnit st unit).depMap := by
  refine ⟨?_, ?_, ?_⟩
  · rw [removeUnit_depMap_eq]
    unfold keys
    rw [List.map_map]
    have hsub : ((st.depMap.filter (fun e => e.1 ∉ unit)).map Prod.fst).Sublist
        (st.depMap.map Prod.fst) :=
      List.Sublist.map Prod.fst (List.filter_sublist st.depMap)
    have : (Prod.fst ∘ fun e : String × Finset String => (e.1, e.2 \ unit)) = Prod.fst := by
      funext e
      rfl
    rw [this]
    exact hsub.nodup hwf.1
  · intro e he
    rw [removeUnit_depMap_eq] at he
    rcases List.mem_map.mp he with ⟨e0, he0, rfl⟩
    have he0m := (List.mem_filter.mp he0).1
    have he0p : e0.1 ∉ unit := by
      simpa using (List.mem_filter.mp he0).2
    exact Finset.mem_sdiff.mpr ⟨hwf.2.1 e0 he0m, he0p⟩
  · intro e he q hq
    rw [removeUnit_depMap_eq] at he
    rcases List.mem_map.mp he with ⟨e0, he0, rfl⟩
    have he0m := (List.mem_filter.mp he0).1
    rcases Finset.mem_sdiff.mp hq with ⟨hq1, hq2⟩
    have hqk : q ∈ keys st.depMap := hwf.2.2 e0 he0m q hq1
    rcases List.mem_map.mp hqk with ⟨e1, he1, rfl⟩
    rw [removeUnit_depMap_eq]
    unfold keys
    rw [List.map_map]
    refine List.mem_map.mpr ⟨e1, List.mem_filter.mpr ⟨he1, by simpa using hq2⟩, rfl⟩

theorem length_removeUnit_lt (st : LoopState) (unit : Finset String) (p : String)
    (hp : p ∈ keys st.depMap) (hpu : p ∈ unit) :
    (removeUnit st unit).depMap.length < st.depMap.length := by
  rw [removeUnit_depMap_eq, List.length_map]
  refine List.length_filter_lt_length_iff_exists.mpr ?_
  rcases List.mem_map.mp hp with ⟨e, he, rfl⟩
  exact ⟨e, he, by simpa using hpu⟩

/-! ## The measure strictly decreases at every non-terminal step -/

theorem psi_expanded_lt (cfg : Config) (st st2 : LoopState) (hwf : WFdep st.depMap)
    (h : loopStep cfg st = .expanded st2) : psi st2 < psi st := by
  obtain ⟨p, d, hsel, hlt, rfl⟩ := loopStep_expanded_spec cfg st st2 h
  have hmem : (p, d) ∈ st.depMap := by
    rcases selectAux_mem st.depMap none p d hsel with h1 | h1
    · exact h1
    · cases h1
  have hsum := sumCards_updateEntry p (closure st.depMap d) st.depMap hwf.1 d hmem
  have hwf2 := wf_updateEntry_closure st.depMap p d hwf hmem
  have hb2 := sumCards_le _ hwf2
  rw [length_updateEntry] at hb2
  unfold psi
  dsimp only
  rw [length_updateEntry]
  omega

theorem psi_finalized_lt (cfg : Config) (st : LoopState) (p : String) (U : Finset String)
    (st2 : LoopState) (h : loopStep cfg st = .finalized p U st2) : psi st2 < psi st := by
  obtain ⟨hsel, _, rfl⟩ := loopStep_finalized_spec cfg st p U st2 h
  have hmem : (p, U) ∈ st.depMap := by
    rcases selectAux_mem st.depMap none p U hsel with h1 | h1
    · exact h1
    · cases h1
  have hpk : p ∈ keys st.depMap := List.mem_map.mpr ⟨(p, U), hmem, rfl⟩
  have hlt : (removeUnit (processUnit cfg st U) (insert p U)).depMap.length <
      st.depMap.length := by
    have := length_removeUnit_lt (processUnit cfg st U) (insert p U) p
      (by rw [processUnit_depMap_eq]; exact hpk) (Finset.mem_insert_self p U)
    rwa [processUnit_depMap_eq] at this
  set a := (removeUnit (processUnit cfg st U) (insert p U)).depMap.length with ha
  set L := st.depMap.length with hL
  have hL1 : 1 ≤ L := by
    cases hLz : st.depMap with
    | nil => rw [hLz] at hpk; cases hpk
    | cons e rest => rw [hL, hLz]; simp
  have h1 : psi (removeUnit (processUnit cfg st U) (insert p U)) ≤ a * a * a + a * a := by
    unfold psi
    rw [← ha]
    have := Nat.sub_le (a * a)
      (sumCards (removeUnit (processUnit cfg st U) (insert p U)).depMap)
    omega
  have h2 : a * a * a + a * a = a * a * (a + 1) := by ring
  have h3 : a + 1 ≤ L := hlt
  have h4 : a * a * (a + 1) ≤ a * a * L := Nat.mul_le_mul_left _ h3
  have h5 : a * a ≤ a * L := Nat.mul_le_mul_left _ (le_of_lt hlt)
  have h6 : a * L < L * L := by
    have := Nat.mul_lt_mul_of_lt_of_le hlt (le_refl L) (by omega)
    exact this
  have h7 : a * a * L ≤ a * L * L := Nat.mul_le_mul_right _ h5
  have h8 : a * L * L < L * L * L := by
    have hLpos : 0 < L := hL1
    exact (Nat.mul_lt_mul_right hLpos).mpr h6
  have h9 : L * L * L ≤ psi st := by
    unfold psi
    rw [← hL]
    omega
  omega

/-! ## Well-formedness is preserved by every step -/

theorem wf_loopStep_expanded (cfg : Config) (st st2 : LoopState) (hwf : WFdep st.depMap)
    (h : loopStep cfg st = .expanded st2) : WFdep st2.depMap := by
  obtain ⟨p, d, hsel, _, rfl⟩ := loopStep_expanded_spec cfg st st2 h
  have hmem : (p, d) ∈ st.depMap := by
    rcases selectAux_mem st.depMap none p d hsel with h1 | h1
    · exact h1
    · cases h1
  exact wf_updateEntry_closure st.depMap p d hwf hmem

theorem wf_loopStep_finalized (cfg : Config) (st : LoopState) (p : String)
    (U : Finset String) (st2 : LoopState) (hwf : WFdep st.depMap)
    (h : loopStep cfg st = .finalized p U st2) : WFdep st2.depMap := by
  obtain ⟨_, _, rfl⟩ := loopStep_finalized_spec cfg st p U st2 h
  exact wf_removeUnit (processUnit cfg st U) (insert p U) hwf

/-! ## Termination and monotone shrinking of the index -/

theorem loopIter_succ_done (cfg : Config) (n : Nat) (st : LoopState)
    (h : loopStep cfg st = .done) : loopIter cfg (n + 1) st = st := by
  show (match loopStep cfg st with
    | .done => st
    | .expanded st2 => loopIter cfg n st2
    | .finalized _ _ st2 => loopIter cfg n st2) = st
  rw [h]

theorem loopIter_succ_expanded (cfg : Config) (n : Nat) (st st2 : LoopState)
    (h : loopStep cfg st = .expanded st2) : loopIter cfg (n + 1) st = loopIter cfg n st2 := by
  show (match loopStep cfg st with
    | .done => st
    | .expanded st2 => loopIter cfg n st2
    | .finalized _ _ st2 => loopIter cfg n st2) = loopIter cfg n st2
  rw [h]

theorem loopIter_succ_finalized (cfg : Config) (n : Nat) (st : LoopState) (p : String)
    (U : Finset String) (st2 : LoopState) (h : loopStep cfg st = .finalized p U st2) :
    loopIter cfg (n + 1) st = loopIter cfg n st2 := by
  show (match loopStep cfg st with
    | .done => st
    | .expanded st2 => loopIter cfg n st2
    | .finalized _ _ st2 => loopIter cfg n st2) = loopIter cfg n st2
  rw [h]

theorem loopIter_empty (cfg : Config) :
    ∀ (fuel : Nat) (st : LoopState), WFdep st.depMap → psi st < fuel →
      (loopIter cfg fuel st).depMap = [] := by
  intro fuel
  induction fuel with
  | zero =>
    intro st _ h
    omega
  | succ n ih =>
    intro st hwf hlt
    cases hls : loopStep cfg st with
    | done =>
      rw [loopIter_succ_done cfg n st hls]
      exact (loopStep_done_iff cfg st).mp hls
    | expanded st2 =>
      rw [loopIter_succ_expanded cfg n st st2 hls]
      refine ih st2 (wf_loopStep_expanded cfg st st2 hwf hls) ?_
      have := psi_expanded_lt cfg st st2 hwf hls
      omega
    | finalized p U st2 =>
      rw [loopIter_succ_finalized cfg n st p U st2 hls]
      refine ih st2 (wf_loopStep_finalized cfg st p U st2 hwf hls) ?_
      have := psi_finalized_lt cfg st p U st2 hls
      omega

theorem loopStep_keys_subset_expanded (cfg : Config) (st st2 : LoopState)
    (h : loopStep cfg st = .expanded st2) :
    ∀ q ∈ keys st2.depMap, q ∈ keys st.depMap := by
  obtain ⟨p, d, _, _, rfl⟩ := loopStep_expanded_spec cfg st st2 h
  intro q hq
  rwa [keys_updateEntry] at hq

theorem loopStep_keys_subset_finalized (cfg : Config) (st : LoopState) (p : String)
    (U : Finset String) (st2 : LoopState) (h : loopStep cfg st = .finalized p U st2) :
    ∀ q ∈ keys st2.depMap, q ∈ keys st.depMap := by
  obtain ⟨_, _, rfl⟩ := loopStep_finalized_spec cfg st p U st2 h
  intro q hq
  have := keys_removeUnit_subset (processUnit cfg st U) (insert p U) q hq
  rwa [processUnit_depMap_eq] at this

theorem loopIter_keys_mono (cfg : Config) :
    ∀ (k : Nat) (st : LoopState), WFdep st.depMap →
      ∀ q ∈ keys (loopIter cfg (k + 1) st).depMap, q ∈ keys (loopIter cfg k st).depMap := by
  intro k
  induction k with
  | zero =>
    intro st _ q hq
    cases hls : loopStep cfg st with
    | done =>
      rw [loopIter_succ_done cfg 0 st hls] at hq
      exact hq
    | expanded st2 =>
      rw [loopIter_succ_expanded cfg 0 st st2 hls] at hq
      exact loopStep_keys_subset_expanded cfg st st2 hls q hq
    | finalized p U st2 =>
      rw [loopIter_succ_finalized cfg 0 st p U st2 hls] at hq
      exact loopStep_keys_subset_finalized cfg st p U st2 hls q hq
  | succ n ih =>
    intro st hwf q hq
    cases hls : loopStep cfg st with
    | done =>
      rw [loopIter_succ_done cfg (n + 1) st hls] at hq
      rw [loopIter_succ_done cfg n st hls]
      exact hq
    | expanded st2 =>
      rw [loopIter_succ_expanded cfg (n + 1) st st2 hls] at hq
      rw [loopIter_succ_expanded cfg n st st2 hls]
      exact ih st2 (wf_loopStep_expanded cfg st st2 hwf hls) q hq
    | finalized p U st2 =>
      rw [loopIter_succ_finalized cfg (n + 1) st p U st2 hls] at hq
      rw [loopIter_succ_finalized cfg n st p U st2 hls]
      exact ih st2 (wf_loopStep_finalized cfg st p U st2 hwf hls) q hq

/-! ## Resolver invariants -/

/-- Under the `error` policy, every path recorded in the dedup set so far is
one that the glob filter rejected (an included one would have thrown). -/
def missingNotIncluded (cfg : Config) (rst : ResolveState) : Prop :=
  ∀ p ∈ rst.missing, cfg.isIncludedAsset p = false

/-- Warnings have pairwise-distinct resolved paths, all recorded in the
dedup set. -/
def warnInv (rst : ResolveState) : Prop :=
  (rst.warnings.map Prod.fst).Nodup ∧ ∀ w ∈ rst.warnings, w.1 ∈ rst.missing

theorem resolve_warnInv (cfg : Config) (rst : ResolveState) (ap path : String)
    (r : Option String) (rst2 : ResolveState)
    (h : resolve cfg rst ap path = .ok (r, rst2)) (hi : warnInv rst) : warnInv rst2 := by
  unfold resolve at h
  split_ifs at h with h1 h2 h3 h4 h5 h6 <;> cases h
  · exact hi
  · exact hi
  · exact hi
  · exact hi
  · exact ⟨hi.1, fun w hw => List.mem_cons_of_mem _ (hi.2 w hw)⟩
  · constructor
    · rw [List.map_append]
      refine List.Nodup.append hi.1 (by simp) ?_
      intro a ha hb
      simp only [List.map_cons, List.map_nil, List.mem_singleton] at hb
      subst hb
      rcases List.mem_map.mp ha with ⟨w, hw, hweq⟩
      exact h4 (hweq ▸ hi.2 w hw)
    · intro w hw
      rcases List.mem_append.mp hw with hw | hw
      · exact List.mem_cons_of_mem _ (hi.2 w hw)
      · simp only [List.mem_singleton] at hw
        subst hw
        exact List.mem_cons_self _ _

theorem resolve_missingNotIncluded (cfg : Config) (rst : ResolveState) (ap path : String)
    (r : Option String) (rst2 : ResolveState) (hpol : cfg.onMissing = OnMissing.error)
    (h : resolve cfg rst ap path = .ok (r, rst2))
    (hi : missingNotIncluded cfg rst) : missingNotIncluded cfg rst2 := by
  unfold resolve at h
  split_ifs at h with h1 h2 h3 h4 h5 <;> cases h
  · exact hi
  · exact hi
  · exact hi
  · exact hi
  · intro p hp
    rcases List.mem_cons.mp hp with rfl | hp
    · simpa using h5
    · exact hi p hp

/-- Under the `error` policy, a recognisable reference to a missing but
glob-included path makes `resolve` throw. -/
theorem resolve_error_of_missing_included (cfg : Config) (rst : ResolveState)
    (ap path : String) (hpol : cfg.onMissing = OnMissing.error)
    (hi : missingNotIncluded cfg rst)
    (hshape : startsWith ap cfg.prefixPath = true ∨ startsWith ap "." = true)
    (hmiss : resolveTarget cfg ap path ∉ cfg.assetIndex)
    (hincl : cfg.isIncludedAsset (resolveTarget cfg ap path) = true) :
    resolve cfg rst ap path =
      .error ("Missing asset " ++ resolveTarget cfg ap path ++ " referenced in " ++ path) := by
  have hnm : resolveTarget cfg ap path ∉ rst.missing := by
    intro hmem
    rw [hi _ hmem] at hincl
    cases hincl
  unfold resolve
  rcases hshape with hs | hs <;>
    simp [hs, hmiss, hpol, hnm, hincl]

/-- A reference that is recognisable, resolves to a path absent from the
asset index, and is matched by the asset globs. -/
abbrev badRef (cfg : Config) (path t : String) : Prop :=
  (startsWith t cfg.prefixPath = true ∨ startsWith t "." = true) ∧
  resolveTarget cfg t path ∉ cfg.assetIndex ∧
  cfg.isIncludedAsset (resolveTarget cfg t path) = true

theorem scanFile_error_of_bad (cfg : Config) (content : List Char) (path : String)
    (hpol : cfg.onMissing = OnMissing.error) :
    ∀ (ms : List (Nat × String)) (refs : List Reference) (deps : Finset String)
      (rst : ResolveState), missingNotIncluded cfg rst →
      (∃ m ∈ ms, badRef cfg path m.2) →
      ∃ msg, scanFile cfg content path ms refs deps rst = .error msg := by
  intro ms
  induction ms with
  | nil =>
    intro refs deps rst _ hbad
    rcases hbad with ⟨m, hm, _⟩
    cases hm
  | cons mt rest ih =>
    intro refs deps rst hmni hbad
    rcases mt with ⟨i, t⟩
    cases hr : resolve cfg rst t path with
    | error e => exact ⟨e, by simp [scanFile, hr]⟩
    | ok out =>
      rcases out with ⟨r, rst2⟩
      have hmni2 := resolve_missingNotIncluded cfg rst t path r rst2 hpol hr hmni
      rcases hbad with ⟨m, hm, hb⟩
      rcases List.mem_cons.mp hm with rfl | hm2
      · rw [resolve_error_of_missing_included cfg rst t path hpol hmni hb.1 hb.2.1 hb.2.2]
          at hr
        cases hr
      · cases r with
        | none =>
          rcases ih refs deps rst2 hmni2 ⟨m, hm2, hb⟩ with ⟨msg, hmsg⟩
          exact ⟨msg, by simp [scanFile, hr, hmsg]⟩
        | some ap =>
          rcases ih (refs ++ [mkRef content ap (i + t.length)])
              (if ap ∈ cfg.fileIndex then insert ap deps else deps) rst2 hmni2
              ⟨m, hm2, hb⟩ with ⟨msg, hmsg⟩
          exact ⟨msg, by simp [scanFile, hr, hmsg]⟩

theorem scanFile_ok_missingNotIncluded (cfg : Config) (content : List Char) (path : String)
    (hpol : cfg.onMissing = OnMissing.error) :
    ∀ (ms : List (Nat × String)) (refs : List Reference) (deps : Finset String)
      (rst : ResolveState) (out : List Reference × Finset String × ResolveState),
      missingNotIncluded cfg rst →
      scanFile cfg content path ms refs deps rst = .ok out →
      missingNotIncluded cfg out.2.2 := by
  intro ms
  induction ms with
  | nil =>
    intro refs deps rst out hmni h
    cases h
    exact hmni
  | cons mt rest ih =>
    intro refs deps rst out hmni h
    rcases mt with ⟨i, t⟩
    cases hr : resolve cfg rst t path with
    | error e => rw [scanFile, hr] at h; cases h
    | ok o =>
      rcases o with ⟨r, rst2⟩
      have hmni2 := resolve_missingNotIncluded cfg rst t path r rst2 hpol hr hmni
      cases r with
      | none =>
        rw [scanFile, hr] at h
        exact ih _ _ _ _ hmni2 h
      | some ap =>
        rw [scanFile, hr] at h
        exact ih _ _ _ _ hmni2 h

theorem buildAll_error_of_bad (cfg : Config)
    (hpol : cfg.onMissing = OnMissing.error) :
    ∀ (files : List String) (rm : List (String × List Reference))
      (dm : List (String × Finset String)) (rst : ResolveState),
      missingNotIncluded cfg rst →
      (∃ f ∈ files, ∃ m ∈ cfg.scan (cfg.fileText f), badRef cfg f m.2) →
      ∃ msg, buildAll cfg files rm dm rst = .error msg := by
  intro files
  induction files with
  | nil =>
    intro rm dm rst _ hbad
    rcases hbad with ⟨f, hf, _⟩
    cases hf
  | cons p rest ih =>
    intro rm dm rst hmni hbad
    cases hb : buildFile cfg p rst with
    | error e => exact ⟨e, by simp [buildAll, hb]⟩
    | ok out =>
      rcases out with ⟨refs, deps, rst2⟩
      have hmni2 : missingNotIncluded cfg rst2 :=
        scanFile_ok_missingNotIncluded cfg (cfg.fileText p) p hpol _ _ _ _ _ hmni hb
      rcases hbad with ⟨f, hf, m, hm, hbadm⟩
      rcases List.mem_cons.mp hf with rfl | hf2
      · rcases scanFile_error_of_bad cfg (cfg.fileText f) f hpol _ [] {f} rst hmni
            ⟨m, hm, hbadm⟩ with ⟨msg, hmsg⟩
        rw [buildFile, hmsg] at hb
        cases hb
      · rcases ih (rm ++ [(p, refs)]) (dm ++ [(p, deps)]) rst2 hmni2
            ⟨f, hf2, m, hm, hbadm⟩ with ⟨msg, hmsg⟩
        exact ⟨msg, by simp [buildAll, hb, hmsg]⟩

theorem scanFile_ok_warnInv (cfg : Config) (content : List Char) (path : String) :
    ∀ (ms : List (Nat × String)) (refs : List Reference) (deps : Finset String)
      (rst : ResolveState) (out : List Reference × Finset String × ResolveState),
      warnInv rst → scanFile cfg content path ms refs deps rst = .ok out →
      warnInv out.2.2 := by
  intro ms
  induction ms with
  | nil =>
    intro refs deps rst out hw h
    cases h
    exact hw
  | cons mt rest ih =>
    intro refs deps rst out hw h
    rcases mt with ⟨i, t⟩
    cases hr : resolve cfg rst t path with
    | error e => rw [scanFile, hr] at h; cases h
    | ok o =>
      rcases o with ⟨r, rst2⟩
      have hw2 := resolve_warnInv cfg rst t path r rst2 hr hw
      cases r with
      | none => rw [scanFile, hr] at h; exact ih _ _ _ _ hw2 h
      | some ap => rw [scanFile, hr] at h; exact ih _ _ _ _ hw2 h

theorem buildAll_ok_warnInv (cfg : Config) :
    ∀ (files : List String) (rm : List (String × List Reference))
      (dm : List (String × Finset String)) (rst : ResolveState) (sr : ScanResult),
      warnInv rst → buildAll cfg files rm dm rst = .ok sr → warnInv sr.rstate := by
  intro files
  induction files with
  | nil =>
    intro rm dm rst sr hw h
    cases h
    exact hw
  | cons p rest ih =>
    intro rm dm rst sr hw h
    cases hb : buildFile cfg p rst with
    | error e => rw [buildAll, hb] at h; cases h
    | ok out =>
      rcases out with ⟨refs, deps, rst2⟩
      have hw2 : warnInv rst2 :=
        scanFile_ok_warnInv cfg (cfg.fileText p) p _ _ _ _ _ hw hb
      rw [buildAll, hb] at h
      exact ih _ _ _ _ hw2 h

/-! ## Splice algebra and the left-to-right / right-to-left equivalence -/

theorem splice_append_left (A B s : List Char) :
    splice (A ++ B) A.length s = A ++ s ++ B := by
  unfold splice
  rw [List.take_left, List.drop_left]

theorem splice_append_mid (A B s : List Char) (k : Nat) :
    splice (A ++ B) (A.length + k) s = A ++ (B.take k ++ s ++ B.drop k) := by
  unfold splice
  rw [List.take_append, List.drop_append]
  simp [List.append_assoc]

theorem splice_splice_comm_core (A B : List Char) (k : Nat) (s u : List Char) :
    splice (splice (A ++ B) A.length s) (A.length + k + s.length) u =
      splice (splice (A ++ B) (A.length + k) u) A.length s := by
  rw [splice_append_left, splice_append_mid, splice_append_left]
  rw [show A ++ s ++ B = (A ++ s) ++ B from by rw [List.append_assoc]]
  rw [show A.length + k + s.length = (A ++ s).length + k from by
    simp [List.length_append]
    omega]
  rw [splice_append_mid]

/-- Inserting at `i` and then at a later position `j` (shifted by the first
insertion) gives the same text as inserting right-to-left. -/
theorem splice_splice_comm (X : List Char) (i j : Nat) (s u : List Char)
    (hij : i ≤ j) (hi : i ≤ X.length) :
    splice (splice X i s) (j + s.length) u = splice (splice X j u) i s := by
  obtain ⟨k, rfl⟩ : ∃ k, j = i + k := ⟨j - i, by omega⟩
  have hcore := splice_splice_comm_core (X.take i) (X.drop i) k s u
  rw [show (X.take i).length = i from by simp; omega, List.take_append_drop] at hcore
  exact hcore

theorem length_splice_ge (t : List Char) (i : Nat) (s : List Char) :
    t.length ≤ (splice t i s).length := by
  unfold splice
  simp [List.length_take, List.length_drop]
  omega

theorem length_splice (t : List Char) (i : Nat) (s : List Char) (h : i ≤ t.length) :
    (splice t i s).length = t.length + s.length := by
  unfold splice
  simp [List.length_take, List.length_drop]
  omega

theorem rtlIns_none (cfg : Config) (c0 : Cache) (r : Reference) (o : Nat) (t : List Char)
    (hh : canonHash cfg c0 r.path = none) : rtlIns cfg c0 r o t = t := by
  unfold rtlIns
  rw [hh]

theorem rtlIns_some (cfg : Config) (c0 : Cache) (r : Reference) (o : Nat) (t : List Char)
    (h : List Char) (hh : canonHash cfg c0 r.path = some h) :
    rtlIns cfg c0 r o t = splice t (insertIdx r + o) (refInsertion cfg r.hasParams h) := by
  unfold rtlIns
  rw [hh]

theorem length_rtlOff (cfg : Config) (c0 : Cache) :
    ∀ (refs : List Reference) (t : List Char) (o : Nat),
      t.length ≤ (rtlOff cfg c0 t refs o).length := by
  intro refs
  induction refs with
  | nil => intro t o; exact le_refl _
  | cons r rest ih =>
    intro t o
    rw [rtlOff]
    cases hh : canonHash cfg c0 r.path with
    | none =>
      rw [rtlIns_none cfg c0 r o _ hh]
      exact ih t o
    | some h =>
      rw [rtlIns_some cfg c0 r o _ h hh]
      exact le_trans (ih t o) (length_splice_ge _ _ _)

theorem cacheConsistent_refl (cfg : Config) (c0 : Cache) : cacheConsistent cfg c0 c0 :=
  ⟨fun _ _ h => h, fun p v h => by
    unfold canonHash
    rw [h]
    rfl⟩

theorem hfwc_canon (cfg : Config) (c0 c : Cache) (p : String)
    (hc : cacheConsistent cfg c0 c) :
    (hashFileWithCache cfg c p).1 = canonHash cfg c0 p ∧
      cacheConsistent cfg c0 (hashFileWithCache cfg c p).2 := by
  cases hl : alookup c p with
  | some v =>
    have he : hashFileWithCache cfg c p = (v, c) := by
      unfold hashFileWithCache
      rw [hl]
    rw [he]
    exact ⟨hc.2 p v hl, hc⟩
  | none =>
    have he : hashFileWithCache cfg c p = (hashFile cfg p, (p, hashFile cfg p) :: c) := by
      unfold hashFileWithCache
      rw [hl]
    rw [he]
    have h0 : alookup c0 p = none := by
      cases h0 : alookup c0 p with
      | none => rfl
      | some w =>
        have := hc.1 p w h0
        rw [hl] at this
        cases this
    constructor
    · unfold canonHash
      rw [h0]
      rfl
    · constructor
      · intro q w hq
        have hcq := hc.1 q w hq
        by_cases hqp : q = p
        · subst hqp
          rw [hl] at hcq
          cases hcq
        · simpa [alookup, hqp] using hcq
      · intro q w hq
        by_cases hqp : q = p
        · subst hqp
          simp only [alookup, if_pos rfl] at hq
          unfold canonHash
          rw [h0]
          cases hq
          rfl
        · exact hc.2 q w (by simpa [alookup, hqp] using hq)

theorem insertIdx_shift (p : String) (e o : Nat) (b : Bool) :
    insertIdx ⟨p, e + o, b⟩ = insertIdx ⟨p, e, b⟩ + o := by
  unfold insertIdx
  cases b <;> simp <;> omega

theorem insertIdx_le_of_lt (a b : Reference) (h : a.endIndex < b.endIndex) :
    insertIdx a ≤ insertIdx b := by
  unfold insertIdx
  cases a.hasParams <;> cases b.hasParams <;> simp <;> omega

theorem length_refInsertion (cfg : Config) (b : Bool) (h : List Char) :
    (refInsertion cfg b h).length = cfg.param.length + h.length + 2 := by
  unfold refInsertion
  cases b <;> simp <;> omega

theorem rtlOff_splice_comm (cfg : Config) (c0 : Cache) :
    ∀ (rest : List Reference) (t : List Char) (o i : Nat) (s : List Char),
      (∀ r ∈ rest, i ≤ insertIdx r + o) → i ≤ t.length →
      rtlOff cfg c0 (splice t i s) rest (o + s.length) =
        splice (rtlOff cfg c0 t rest o) i s := by
  intro rest
  induction rest with
  | nil => intro t o i s _ _; rfl
  | cons r rest2 ih =>
    intro t o i s hge hit
    rw [rtlOff, rtlOff]
    cases hh : canonHash cfg c0 r.path with
    | none =>
      rw [rtlIns_none cfg c0 r _ _ hh, rtlIns_none cfg c0 r _ _ hh]
      exact ih t o i s (fun r2 hr2 => hge r2 (List.mem_cons_of_mem _ hr2)) hit
    | some h =>
      rw [rtlIns_some cfg c0 r _ _ h hh, rtlIns_some cfg c0 r _ _ h hh]
      rw [ih t o i s (fun r2 hr2 => hge r2 (List.mem_cons_of_mem _ hr2)) hit]
      rw [show insertIdx r + (o + s.length) = (insertIdx r + o) + s.length from by omega]
      exact splice_splice_comm _ i (insertIdx r + o) s _
        (hge r (List.mem_cons_self _ _))
        (le_trans hit (length_rtlOff cfg c0 rest2 t o))

theorem iqp_rtl_gen (cfg : Config) (c0 : Cache) :
    ∀ (refs : List Reference) (t : List Char) (o : Nat) (c : Cache),
      cacheConsistent cfg c0 c →
      refs.Pairwise (fun a b => a.endIndex < b.endIndex) →
      (∀ r ∈ refs, insertIdx r + o ≤ t.length) →
      (iqpAux cfg ∅ refs t o c).1 = rtlOff cfg c0 t refs o := by
  intro refs
  induction refs with
  | nil => intro t o c _ _ _; rfl
  | cons r rest ih =>
    intro t o c hc hp hb
    obtain ⟨hv, hc2⟩ := hfwc_canon cfg c0 c r.path hc
    rw [iqpAux]
    dsimp only
    rw [if_neg (Finset.not_mem_empty r.path)]
    rw [rtlOff]
    cases hh : canonHash cfg c0 r.path with
    | none =>
      rw [hv.trans hh]
      dsimp only
      rw [rtlIns_none cfg c0 r o _ hh]
      exact ih t o _ hc2 (List.Pairwise.of_cons hp)
        (fun r2 hr2 => hb r2 (List.mem_cons_of_mem _ hr2))
    | some h =>
      rw [hv.trans hh]
      dsimp only
      rw [rtlIns_some cfg c0 r o _ h hh]
      have hidx : insertIdx (⟨r.path, r.endIndex + o, r.hasParams⟩ : Reference) =
          insertIdx r + o := insertIdx_shift r.path r.endIndex o r.hasParams
      rw [hidx]
      have hlen : (refInsertion cfg r.hasParams h).length =
          cfg.param.length + h.length + 2 := length_refInsertion cfg r.hasParams h
      have hio : insertIdx r + o ≤ t.length := hb r (List.mem_cons_self _ _)
      have hrec := ih (splice t (insertIdx r + o) (refInsertion cfg r.hasParams h))
        (o + (cfg.param.length + h.length + 2)) _ hc2 (List.Pairwise.of_cons hp) ?_
      · rw [show o + cfg.param.length + h.length + 2 =
            o + (cfg.param.length + h.length + 2) from by omega]
        rw [hrec]
        rw [show o + (cfg.param.length + h.length + 2) =
            o + (refInsertion cfg r.hasParams h).length from by omega]
        refine rtlOff_splice_comm cfg c0 rest t o (insertIdx r + o) _ ?_ hio
        intro r2 hr2
        have hlt : r.endIndex < r2.endIndex := (List.pairwise_cons.mp hp).1 r2 hr2
        have := insertIdx_le_of_lt r r2 hlt
        omega
      · intro r2 hr2
        rw [length_splice t (insertIdx r + o) _ hio, hlen]
        have := hb r2 (List.mem_cons_of_mem _ hr2)
        omega

/-! ## Claim theorems -/

/-- C1: the claim says the checksum assigned to a finalized unit equals the
digest of the byte encoding of the concatenated Phase-A-rewritten contents.
The code instead digests an empty buffer: line 200 allocates
`new Uint8Array()` (capacity 0) and `encodeInto` writes nothing into it, so
the stored checksum is `hashContents` of the empty byte list even when the
combined Phase-A content is "hello", whose encoded digest differs. -/
theorem claim1_unit_checksum_ignores_contents :
    alookup (processUnit cfg1 st1 U1).cache "u/a.html" =
      some (some (hashContents cfg1 [])) ∧
    unitPhaseAContents cfg1 st1 U1 = "hello".data ∧
    hashContents cfg1 (cfg1.encode (unitPhaseAContents cfg1 st1 U1)) ≠
      hashContents cfg1 [] := by
  decide

/-- C2: in the chain `a.html → b.html → c.css` (content "X"), the run does
rewrite `b.html`'s reference to `c.css?v=hx` with `hx` the digest of
`c.css`'s raw byte (first conjunct, second write entry shows `b.html`'s
output; third conjunct shows `hx` is the raw-content digest).  But `a.html`'s
reference to `b.html` receives `?v=h`, where `"h"` is the digest of the
EMPTY byte list — not the digest of `b.html`'s post-rewrite content
`" ./c.css?v=hx "` (last conjunct), contradicting the claim that the
identifier is never a digest of empty content.  Root cause: the
`encodeInto`-into-`new Uint8Array()` slip at lines 200-201. -/
theorem claim2_chain_scenario_empty_digest :
    assetHashRun cfg2 4 =
      .ok [("out/b.html", " ./c.css?v=hx ".data), ("out/a.html", " ./b.html?v=h ".data)] ∧
    hashFile cfg2 "out/c.css" = some "hx".data ∧
    "h".data = hashContents cfg2 [] ∧
    "h".data ≠ hashContents cfg2 (cfg2.encode " ./c.css?v=hx ".data) := by
  decide

/-- C5: after `processLoop` finalizes a unit (of any size, in particular a
cycle of size > 1), every member's cached checksum is the same value: lines
202-205 store the single combined hash for every member, and the Phase-B
rewrites only ever add cache entries for paths not yet present. -/
theorem claim5_cycle_members_share_checksum (cfg : Config) (st : LoopState)
    (U : Finset String) (p q : String) (hcard : 1 < U.card) (hp : p ∈ U) (hq : q ∈ U) :
    ∃ h, alookup (processUnit cfg st U).cache p = some (some h) ∧
      alookup (processUnit cfg st U).cache q = some (some h) := by
  refine ⟨hashContents cfg ((cfg.encode (unitPhaseAContents cfg st U)).take 0), ?_, ?_⟩
  · exact phaseB_cache_mono cfg _ _ _
      (alookup_setAll_mem _ _ _ (Or.inl ((mem_finsetSorted U p).mpr hp)))
  · exact phaseB_cache_mono cfg _ _ _
      (alookup_setAll_mem _ _ _ (Or.inl ((mem_finsetSorted U q).mpr hq)))

/-- Witness for C5 at a concrete two-member cycle. -/
theorem claim5_witness :
    ∃ h, alookup (processUnit cfg1 st5w U5w).cache "u/a.html" = some (some h) ∧
      alookup (processUnit cfg1 st5w U5w).cache "u/b.html" = some (some h) :=
  claim5_cycle_members_share_checksum cfg1 st5w U5w "u/a.html" "u/b.html"
    (by decide) (by decide) (by decide)

/-- C8: for a resolvable reference (its checksum is cached as `h`), the
rewriter inserts `?{param}={identifier}` at the reference's end index when
the character at that index is not `'?'`, and inserts `{param}={identifier}&`
one position later (immediately after the `'?'`) when it is — so `ref?x=1`
becomes `ref?param=h&x=1` and a bare `ref` becomes `ref?param=h`.  The
reference is built exactly as the scan loop builds it (`mkRef`, line 150). -/
theorem claim8_query_insertion_shape (cfg : Config) (c : Cache) (content : List Char)
    (p : String) (e : Nat) (h : List Char) (hc : alookup c p = some (some h)) :
    (insertQueryParams cfg c content [mkRef content p e] ∅).1 =
      if content.get? e = some '?' then
        splice content (e + 1) (cfg.param ++ '=' :: h ++ ['&'])
      else splice content e ('?' :: cfg.param ++ '=' :: h) := by
  by_cases hq : content[e]? = some '?' <;>
    simp [insertQueryParams, iqpAux, mkRef, List.get?_eq_getElem?, hq, hashFileWithCache, hc,
      insertIdx, refInsertion]

/-- Witness for C8: a reference ending at index 6 where the next character
is `'?'` (existing query `a=1`), with cached checksum `"h"`; the existing
query is preserved after the inserted parameter. -/
theorem claim8_witness :
    (insertQueryParams cfg1 [("x.css", some ['h'])] " x.css?a=1 ".data
        [mkRef " x.css?a=1 ".data "x.css" 6] ∅).1 = " x.css?v=h&a=1 ".data := by
  rw [claim8_query_insertion_shape cfg1 [("x.css", some ['h'])] " x.css?a=1 ".data
    "x.css" 6 ['h'] (by decide)]
  decide

/-- C3: under `onMissing == "error"`, a reference in an indexed file whose
resolved path is absent from the asset index and matched by the asset globs
makes the whole run throw.  In the model the scan-and-resolve pass
(`buildMaps`, lines 141-156) runs strictly before the processing loop that
contains the only `fs.writeFile` call (line 210), and the run result on
success *is* the write trace, so an `error` outcome means no file was
written. -/
theorem claim3_error_policy_no_partial_writes (cfg : Config) (fuel : Nat)
    (f : String) (m : Nat × String) (hpol : cfg.onMissing = OnMissing.error)
    (hf : f ∈ cfg.fileIndex) (hm : m ∈ cfg.scan (cfg.fileText f))
    (hbad : badRef cfg f m.2) :
    ∃ msg, assetHashRun cfg fuel = .error msg := by
  rcases buildAll_error_of_bad cfg hpol cfg.fileIndex [] [] ⟨[], []⟩
      (by intro p hp; cases hp) ⟨f, hf, m, hm, hbad⟩ with ⟨msg, hmsg⟩
  exact ⟨msg, by simp [assetHashRun, buildMaps, hmsg]⟩

/-- Witness for C3 at `cfg9`: the run throws (so its write trace is empty). -/
theorem claim3_witness : ∃ msg, assetHashRun cfg9 5 = .error msg :=
  claim3_error_policy_no_partial_writes cfg9 5 "f" (0, "./m.css") rfl (by decide)
    (by decide) (by decide)

/-- Counterexample for C9: the claim says `resolve` *returns unresolved
(null)* whenever the joined canonical path is missing from the asset index.
At `cfg9` the joined path `m.css` is missing (second conjunct), yet `resolve`
does not return at all — it throws, because the policy is `error` and the
path is glob-included. -/
theorem claim9_counterexample :
    resolve cfg9 ⟨[], []⟩ "./m.css" "f" =
      .error "Missing asset m.css referenced in f" ∧
    resolveTarget cfg9 "./m.css" "f" ∉ cfg9.assetIndex := by
  decide

/-- C9 (amended): a reference that neither starts with the path prefix nor
with `.` always resolves to unresolved; and whenever `resolve` returns
normally with a resolved path, that path is a member of the asset index — so
no identifier is ever attached to a missing target.  (As stated the claim
fails only because, under `onMissing == "error"`, a missing glob-included
target makes `resolve` throw instead of returning unresolved.) -/
theorem claim9_resolve_unresolved_amended (cfg : Config) (rst : ResolveState)
    (ap path : String) :
    (startsWith ap cfg.prefixPath = false → startsWith ap "." = false →
      resolve cfg rst ap path = .ok (none, rst)) ∧
    (∀ p rst2, resolve cfg rst ap path = .ok (some p, rst2) → p ∈ cfg.assetIndex) := by
  constructor
  · intro h1 h2
    unfold resolve
    simp [h1, h2]
  · intro p rst2 h
    unfold resolve at h
    split_ifs at h with h1 h2 h3 h4 h5 h6 <;> cases h
    exact h2

/-- Witness for C9 at a reference of unrecognised shape. -/
theorem claim9_witness :
    resolve cfg9 ⟨[], []⟩ "nope.css" "f" = .ok (none, (⟨[], []⟩ : ResolveState)) :=
  (claim9_resolve_unresolved_amended cfg9 ⟨[], []⟩ "nope.css" "f").1 (by decide) (by decide)

/-- C10: a missing resolved path that the asset globs do not match resolves
to unresolved silently — no warning is added and no exception is raised even
under the `error` policy (first conjunct, proved for every policy); and over
a whole scan pass each distinct missing path produces at most one warning:
the warned paths are pairwise distinct (second conjunct), because `missing`
dedups by resolved path before any warning is emitted. -/
theorem claim10_missing_gating_and_dedup (cfg : Config) (rst : ResolveState)
    (ap path : String) (sr : ScanResult)
    (hmiss : resolveTarget cfg ap path ∉ cfg.assetIndex)
    (hincl : cfg.isIncludedAsset (resolveTarget cfg ap path) = false) :
    (∃ rst2, resolve cfg rst ap path = .ok (none, rst2) ∧
      rst2.warnings = rst.warnings) ∧
    (buildMaps cfg = .ok sr → (sr.rstate.warnings.map Prod.fst).Nodup) := by
  constructor
  · unfold resolve
    split_ifs with h1 h2 h3 h4 h5
    · exact ⟨rst, rfl, rfl⟩
    · exact ⟨rst, rfl, rfl⟩
    · exact ⟨rst, rfl, rfl⟩
    · exact ⟨_, rfl, rfl⟩
    · simp [hincl] at h4
    · simp [hincl] at h4
  · intro hok
    exact (buildAll_ok_warnInv cfg cfg.fileIndex [] [] ⟨[], []⟩ sr
      ⟨List.nodup_nil, by intro w hw; cases hw⟩ hok).1

/-- C4: every unit chosen for finalization is closed — each member's
dependency set (restricted to the index, which is all a dependency set ever
contains) is contained in the unit — and minimal in the claimed sense: every
member transitively reaches the selected file `p` through the dependency
map, so an artifact that does not reference back into the cycle can never be
a member (it is finalized in an earlier unit, which is why it no longer
appears in any dependency set).  The second conjunct holds because the
selection loop picks an entry of globally minimal size: a member whose
closure misses `p` would have a strictly smaller dependency set than the
selected one. -/
theorem claim4_selected_unit_closed_and_minimal (cfg : Config) (st : LoopState)
    (p : String) (U : Finset String) (hwf : WFdep st.depMap)
    (h : finalizeInfo cfg st = some (p, U)) :
    (∀ q ∈ U, depsOf st.depMap q ⊆ U) ∧
    (∀ q ∈ U, p ∈ closure st.depMap (depsOf st.depMap q)) := by
  obtain ⟨hsel, hcard⟩ := finalizeInfo_spec cfg st p U h
  obtain ⟨hfix, hmem⟩ := selected_closed st.depMap p U hsel hcard
  have hclosed := (closed_iff st.depMap U).mp hfix
  refine ⟨hclosed, ?_⟩
  intro q hq
  by_contra hnp
  have hall1 : ∀ e ∈ st.depMap, 1 ≤ e.2.card :=
    fun e he => Finset.card_pos.mpr ⟨e.1, hwf.2.1 e he⟩
  have hqkeys : q ∈ keys st.depMap := hwf.2.2 (p, U) hmem q hq
  obtain ⟨v, hv⟩ := alookup_exists_of_mem_keys st.depMap q hqkeys
  have hvdeps : depsOf st.depMap q = v := by
    unfold depsOf
    rw [hv]
    rfl
  have hvmem : (q, v) ∈ st.depMap := alookup_mem st.depMap q v hv
  have hmin : U.card ≤ v.card :=
    (selectAux_min st.depMap none p U hall1 (fun b hb => by cases hb) hsel).1 (q, v) hvmem
  have hsubU : closure st.depMap (depsOf st.depMap q) ⊆ U :=
    closeN_subset_closed st.depMap st.depMap.length (hclosed q hq) hfix
  have hsubErase : closure st.depMap (depsOf st.depMap q) ⊆ U.erase p := by
    intro x hx
    refine Finset.mem_erase.mpr ⟨fun hxp => hnp (hxp ▸ hx), hsubU hx⟩
  have hpU : p ∈ U := hwf.2.1 (p, U) hmem
  have h1 : (closure st.depMap (depsOf st.depMap q)).card ≤ U.card - 1 := by
    have := Finset.card_le_card hsubErase
    rwa [Finset.card_erase_of_mem hpU] at this
  have h2 : v.card ≤ (closure st.depMap (depsOf st.depMap q)).card := by
    rw [hvdeps]
    exact Finset.card_le_card (subset_closeN st.depMap st.depMap.length v)
  have hU1 : 1 ≤ U.card := Finset.card_pos.mpr ⟨p, hpU⟩
  omega

/-- Witness for C4: a two-member cycle `a ⇄ b` whose closed entry is
selected and finalized. -/
theorem claim4_witness :
    (∀ q ∈ U5w, depsOf st5w.depMap q ⊆ U5w) ∧
    (∀ q ∈ U5w, "u/a.html" ∈ closure st5w.depMap (depsOf st5w.depMap q)) :=
  claim4_selected_unit_closed_and_minimal cfg1 st5w "u/a.html" U5w (by decide) (by decide)

/-- Counterexample for C7: `insertQueryParams` is NOT order-independent for
arbitrary permutations of the reference list.  With two resolvable
references ending at indices 1 and 3 of "PQRS", the ascending order yields
"P?v=hxQR?v=hyS" but the swapped order yields "PQR?v=?v=hxhyS": the
cumulative offset is added to the earlier reference's end index even though
no insertion happened before it. -/
theorem claim7_counterexample :
    (insertQueryParams cfg7 [] "PQRS".data [r71, r72] ∅).1 ≠
      (insertQueryParams cfg7 [] "PQRS".data [r72, r71] ∅).1 := by
  decide

/-- C7 (amended): rewriting is order-independent in effect only for the
scanner's position-sorted order: on a reference list strictly ascending by
end index (with in-bounds insertion points), the left-to-right sweep with
cumulative offset bookkeeping (`insertQueryParams`) produces exactly the
same text as the right-to-left sweep without any offset bookkeeping
(`rtlOff`) — the spec's two interchangeable strategies.  For an arbitrary
permutation of the reference list the output can differ (see the
counterexample). -/
theorem claim7_sorted_rewrite_order_free (cfg : Config) (c : Cache) (t : List Char)
    (refs : List Reference)
    (hsort : refs.Pairwise (fun a b => a.endIndex < b.endIndex))
    (hbound : ∀ r ∈ refs, insertIdx r ≤ t.length) :
    (insertQueryParams cfg c t refs ∅).1 = rtlOff cfg c t refs 0 :=
  iqp_rtl_gen cfg c refs t 0 c (cacheConsistent_refl cfg c) hsort
    (fun r hr => by
      have := hbound r hr
      omega)

/-- Witness for C7 at the ascending list from the counterexample setup. -/
theorem claim7_witness :
    (insertQueryParams cfg7 [] "PQRS".data [r71, r72] ∅).1 =
      rtlOff cfg7 [] "PQRS".data [r71, r72] 0 :=
  claim7_sorted_rewrite_order_free cfg7 [] "PQRS".data [r71, r72] (by decide) (by decide)

/-- C6: starting from any well-formed state (finite index, maps built by the
scan pass), the index only ever shrinks — after each further iteration the
set of indexed paths is a subset of what it was, so nothing is ever re-added
— and the loop terminates with the Processing Index empty within
`psi st + 1` iterations, where `psi` is the explicit measure
`L*L*L + (L*L - Σ cards)`: closure expansion grows some entry (decreasing
the second summand) and finalization removes at least the selected path
(decreasing the first). -/
theorem claim6_loop_terminates_and_index_shrinks (cfg : Config) (st : LoopState)
    (hwf : WFdep st.depMap) :
    (∀ k, ∀ q ∈ keys (loopIter cfg (k + 1) st).depMap,
      q ∈ keys (loopIter cfg k st).depMap) ∧
    (loopIter cfg (psi st + 1) st).depMap = [] :=
  ⟨fun k => loopIter_keys_mono cfg k st hwf,
   loopIter_empty cfg (psi st + 1) st hwf (by omega)⟩

/-- Witness for C6: the two-member cycle state drains to the empty index. -/
theorem claim6_witness :
    (∀ q ∈ keys (loopIter cfg1 1 st5w).depMap, q ∈ keys (loopIter cfg1 0 st5w).depMap) ∧
    (loopIter cfg1 (psi st5w + 1) st5w).depMap = [] :=
  ⟨(claim6_loop_terminates_and_index_shrinks cfg1 st5w (by decide)).1 0,
   (claim6_loop_terminates_and_index_shrinks cfg1 st5w (by decide)).2⟩

/-- Witness for C10 at `cfg10w` (error policy, glob-rejected missing path). -/
theorem claim10_witness :
    (∃ rst2, resolve cfg10w ⟨[], []⟩ "./m.css" "f" = .ok (none, rst2) ∧
      rst2.warnings = (⟨[], []⟩ : ResolveState).warnings) ∧
    (buildMaps cfg10w = .ok sr10w → (sr10w.rstate.warnings.map Prod.fst).Nodup) :=
  claim10_missing_gating_and_dedup cfg10w ⟨[], []⟩ "./m.css" "f" sr10w (by decide) (by decide)

end AssetHash
